import Mathlib

/-!
Verification of the `stream-broadcast` crate (`src/lib.rs`, `src/weak.rs`).

The development shallowly embeds the broadcast core:

* `FusedSrc` models the wrapped `T : FusedStream` source. Its behaviour is a
  script of poll outcomes for the inner stream, plus the fuse flag of the
  `futures` `Fuse` combinator (the crate's trait bound): once the inner stream
  has returned `Ready(None)`, every further poll answers `done` without
  touching the inner stream. The ghost field `innerPolls` counts how many
  times the inner stream was actually polled.
* `StreamBroadcastState` and its `poll` mirror `StreamBroadcastState` in
  `src/lib.rs` (lines 136-200). Rust panics (index out of bounds, `% 0`) are
  modelled as `none`; waker tokens are plain numbers and the list of tokens
  woken by a call is returned as a ghost result.
* `broadast_next` mirrors the function of the same (misspelled) name in
  `src/lib.rs` lines 103-125, with the `debug_assert!(new_pos > *pos)`
  modelled as a panic (`none`), i.e. debug-build semantics.
* `Sys` is a whole-system model: the shared core plus the strong and weak
  handles (`StreamBroadcast` / `WeakStreamBroadcast` hold `pos`, `id` and a
  reference to the shared state; the reference is represented by sharing
  `Sys.core`). `Cmd`/`Sys.step` enumerate the operations a user can perform;
  `create_id` models the global `AtomicU64` id counter.
-/

namespace StreamBroadcast

variable {α : Type}

/-- One poll outcome of the inner stream: `Pending`, `Ready(Some x)`, or
`Ready(None)`. -/
inductive SrcPoll (α : Type) where
  | pending
  | item (x : α)
  | done
deriving DecidableEq

/-- The `T : FusedStream` source handed to `StreamBroadcast::new`. `script`
lists the successive answers of the inner stream (an exhausted script means
the inner stream stays pending), `terminated` is the fuse flag, and
`innerPolls` is a ghost counter of polls that actually reached the inner
stream. -/
structure FusedSrc (α : Type) where
  script : List (SrcPoll α)
  terminated : Bool
  innerPolls : Nat
deriving DecidableEq

/-- Polling the fused source: if the fuse flag is set, answer `done` without
touching the inner stream (the `Fuse` combinator of the `futures` crate);
otherwise poll the inner stream, consuming the head of the script. -/
def FusedSrc.poll (s : FusedSrc α) : SrcPoll α × FusedSrc α :=
  if s.terminated then (.done, s)
  else
    match s.script with
    | [] => (.pending, ⟨[], s.terminated, s.innerPolls + 1⟩)
    | .pending :: rest => (.pending, ⟨rest, s.terminated, s.innerPolls + 1⟩)
    | .item x :: rest => (.item x, ⟨rest, s.terminated, s.innerPolls + 1⟩)
    | .done :: rest => (.done, ⟨rest, true, s.innerPolls + 1⟩)

/-- Result of `StreamBroadcastState::poll`: `Poll<Option<(u64, T::Item)>>`. -/
inductive CorePoll (α : Type) where
  | ready (newPos : Nat) (x : α)
  | readyNone
  | pending
deriving DecidableEq

/-- The shared state of `src/lib.rs` lines 136-143: the source, the global
position, the ring-buffer cache (a `Vec` whose reserved capacity is
`cacheCap`), and the `wakable` list of `(consumer id, waker token)` pairs. -/
structure StreamBroadcastState (α : Type) where
  stream : FusedSrc α
  global_pos : Nat
  cache : List α
  cacheCap : Nat
  wakable : List (Nat × Nat)
deriving DecidableEq

/-- `StreamBroadcastState::new` (`src/lib.rs` lines 149-156):
`Vec::with_capacity(size)` gives an empty cache with capacity `size`; there
is no validation of `size`. -/
def StreamBroadcastState.new (outer : FusedSrc α) (size : Nat) : StreamBroadcastState α :=
  { stream := outer, global_pos := 0, cache := [], cacheCap := size, wakable := [] }

/-- `StreamBroadcastState::poll` (`src/lib.rs` lines 157-200). `none` models
a Rust panic (`% 0` or an out-of-bounds index). The third component of the
result is the ghost list of waker tokens woken by this call. -/
def StreamBroadcastState.poll (st : StreamBroadcastState α) (request_pos id wtok : Nat) :
    Option (CorePoll α × StreamBroadcastState α × List Nat) :=
  if st.global_pos > request_pos then
    -- lagging consumer: serve from the cache, never touching the source
    if st.cacheCap = 0 then none -- `return_pos % 0` panics
    else
      match st.cache.get? ((if st.global_pos - request_pos > st.cacheCap
          then st.global_pos - st.cacheCap else request_pos) % st.cacheCap) with
      | some result =>
        some (.ready ((if st.global_pos - request_pos > st.cacheCap
            then st.global_pos - st.cacheCap else request_pos) + 1) result, st, [])
      | none => none -- out-of-bounds index panics
  else
    match st.stream.poll with
    | (.item x, str) =>
      -- wake every waiter whose id differs from the caller, drain the list
      if st.cache.length < st.cacheCap then
        some (.ready (st.global_pos + 1) x,
          ⟨str, st.global_pos + 1, st.cache ++ [x], st.cacheCap, []⟩,
          (st.wakable.filter (fun kw => kw.1 != id)).map Prod.snd)
      else if st.cacheCap = 0 then none -- `global_pos % 0` panics
      else if st.global_pos % st.cacheCap < st.cache.length then
        some (.ready (st.global_pos + 1) x,
          ⟨str, st.global_pos + 1, st.cache.set (st.global_pos % st.cacheCap) x,
            st.cacheCap, []⟩,
          (st.wakable.filter (fun kw => kw.1 != id)).map Prod.snd)
      else none -- out-of-bounds index assignment panics
    | (.done, str) => some (.readyNone, { st with stream := str }, [])
    | (.pending, str) =>
      some (.pending, { st with stream := str, wakable := st.wakable ++ [(id, wtok)] }, [])

/-- Consumer-visible result of a handle's `poll_next`. -/
inductive NextRes (α : Type) where
  | item (skip : Nat) (x : α)
  | done
  | pending
deriving DecidableEq

/-- `broadast_next` (`src/lib.rs` lines 103-125): translates a core result
into the consumer-visible `(skip_count, item)` pair and updates the handle's
cursor. The `debug_assert!(new_pos > *pos)` is modelled as a panic (`none`),
i.e. debug-build semantics. Returns the consumer result, the new cursor, the
new core state and the ghost list of woken tokens. -/
def broadast_next (st : StreamBroadcastState α) (pos id wtok : Nat) :
    Option (NextRes α × Nat × StreamBroadcastState α × List Nat) :=
  match st.poll pos id wtok with
  | none => none
  | some (.ready new_pos x, st2, w) =>
    if new_pos ≤ pos then none -- debug_assert!(new_pos > *pos, "Must always grow")
    else some (.item (new_pos - pos - 1) x, new_pos, st2, w)
  | some (.readyNone, st2, w) => some (.done, pos + 1, st2, w)
  | some (.pending, st2, w) => some (.pending, pos, st2, w)

/-- The `pos`/`id` fields of a `StreamBroadcast` or `WeakStreamBroadcast`
handle (the shared-state reference is represented by `Sys.core`). -/
structure Handle where
  pos : Nat
  id : Nat
deriving DecidableEq

/-- `create_id` (`src/lib.rs` lines 99-102): `fetch_add(1)` on a global
counter — returns the current value and the incremented counter. -/
def create_id (c : Nat) : Nat × Nat := (c, c + 1)

/-- Whole-system state: the shared core, the live strong handles, the weak
handles, and the value of the global id counter. The `Arc` is alive exactly
while `strongs` is nonempty. -/
structure Sys (α : Type) where
  core : StreamBroadcastState α
  strongs : List Handle
  weaks : List Handle
  nextId : Nat
deriving DecidableEq

/-- All handles of the system. -/
def Sys.handles (s : Sys α) : List Handle := s.strongs ++ s.weaks

/-- Whether the core is still alive, i.e. some strong handle remains
(`Weak::upgrade` succeeds exactly then). -/
def Sys.alive (s : Sys α) : Bool := !s.strongs.isEmpty

/-- `StreamBroadcast::new` (`src/lib.rs` lines 51-57) as a system: one strong
handle at cursor 0 with a fresh id. -/
def Sys.init (outer : FusedSrc α) (size : Nat) : Sys α :=
  { core := StreamBroadcastState.new outer size,
    strongs := [⟨0, (create_id 0).1⟩], weaks := [], nextId := (create_id 0).2 }

/-- The operations a user can perform on the system. Poll commands carry the
waker token of the polling task. -/
inductive Cmd where
  | pollStrong (i wtok : Nat)
  | pollWeak (i wtok : Nat)
  | cloneStrong (i : Nat)
  | cloneWeak (i : Nat)
  | downgrade (i : Nat)
  | upgrade (i : Nat)
  | dropStrong (i : Nat)
deriving DecidableEq

/-- One system step. Commands naming a missing handle are no-ops, and a Rust
panic aborts the step (state unchanged). Mirrors:
`Stream::poll_next` for `StreamBroadcast` (lines 90-97) and
`WeakStreamBroadcast` (weak.rs lines 60-70), `Clone` for both (lines 37-45,
weak.rs lines 40-52), `downgrade` (lines 74-76), `upgrade` (weak.rs lines
30-37) and dropping a strong handle. -/
def Sys.step (s : Sys α) : Cmd → Sys α
  | .pollStrong i tok =>
    match s.strongs.get? i with
    | some h =>
      match broadast_next s.core h.pos h.id tok with
      | some (_, p2, c2, _) => { s with core := c2, strongs := s.strongs.set i ⟨p2, h.id⟩ }
      | none => s
    | none => s
  | .pollWeak i tok =>
    match s.weaks.get? i with
    | some h =>
      if s.alive then
        match broadast_next s.core h.pos h.id tok with
        | some (_, p2, c2, _) => { s with core := c2, weaks := s.weaks.set i ⟨p2, h.id⟩ }
        | none => s
      else s -- upgrade of the Weak fails: return Ready(None), touch nothing
    | none => s
  | .cloneStrong i =>
    match s.strongs.get? i with
    | some _ =>
      { s with strongs := s.strongs ++ [⟨s.core.global_pos, (create_id s.nextId).1⟩],
               nextId := (create_id s.nextId).2 }
    | none => s
  | .cloneWeak i =>
    match s.weaks.get? i with
    | some _ =>
      { s with weaks := s.weaks ++
          [⟨if s.alive then s.core.global_pos else 0, (create_id s.nextId).1⟩],
               nextId := (create_id s.nextId).2 }
    | none => s
  | .downgrade i =>
    match s.strongs.get? i with
    | some h =>
      { s with weaks := s.weaks ++ [⟨h.pos, (create_id s.nextId).1⟩],
               nextId := (create_id s.nextId).2 }
    | none => s
  | .upgrade i =>
    match s.weaks.get? i with
    | some h =>
      if s.alive then
        { s with strongs := s.strongs ++ [⟨h.pos, (create_id s.nextId).1⟩],
                 nextId := (create_id s.nextId).2 }
      else s -- `self.state.upgrade()?` fails before `create_id` is reached
    | none => s
  | .dropStrong i =>
    match s.strongs.get? i with
    | some _ => { s with strongs := s.strongs.eraseIdx i }
    | none => s

/-- Run a list of commands. -/
def Sys.run (s : Sys α) (cs : List Cmd) : Sys α := cs.foldl Sys.step s

/-- `WeakStreamBroadcast::poll_next` (`src/weak.rs` lines 60-70): the
argument is the result of `Weak::upgrade` on the shared state; a dead core
yields `Ready(None)` immediately, without touching the cursor. -/
def WeakStreamBroadcast.poll_next (core : Option (StreamBroadcastState α))
    (pos id wtok : Nat) :
    Option (NextRes α × Nat × Option (StreamBroadcastState α) × List Nat) :=
  match core with
  | none => some (.done, pos, none, [])
  | some st =>
    match broadast_next st pos id wtok with
    | some (r, p2, st2, w) => some (r, p2, some st2, w)
    | none => none

/-- `WeakStreamBroadcast::upgrade` (`src/weak.rs` lines 30-37): on a live
core, a new strong handle at the weak handle's cursor with a fresh id; on a
dead core, `None` (and `create_id` is not called). -/
def WeakStreamBroadcast.upgrade (core : Option (StreamBroadcastState α))
    (pos cnt : Nat) : Option Handle × Nat :=
  match core with
  | none => (none, cnt)
  | some _ => (some ⟨pos, (create_id cnt).1⟩, (create_id cnt).2)

/-- The cache-length invariant of reachable cores: the `Vec` holds
`min global_pos capacity` items. -/
def StreamBroadcastState.WFCache (st : StreamBroadcastState α) : Prop :=
  st.cache.length = min st.global_pos st.cacheCap

/-- A terminated fused source answers `done` and is left untouched. -/
theorem FusedSrc.poll_terminated (s : FusedSrc α) (h : s.terminated = true) :
    s.poll = (.done, s) := by
  simp [FusedSrc.poll, h]

/-- A `done` answer leaves the fuse flag set. -/
theorem FusedSrc.poll_done_flag (s s2 : FusedSrc α) (h : s.poll = (.done, s2)) :
    s2.terminated = true := by
  rcases s with ⟨script, term, n⟩
  cases term
  · cases script with
    | nil => simp [FusedSrc.poll] at h
    | cons o rest =>
      cases o <;> simp [FusedSrc.poll] at h
      rw [← h]
  · simp [FusedSrc.poll] at h
    rw [← h]

/-- An `item` answer can only come from a non-terminated source and leaves
the fuse flag clear. -/
theorem FusedSrc.poll_item_flag (s s2 : FusedSrc α) (x : α)
    (h : s.poll = (.item x, s2)) :
    s.terminated = false ∧ s2.terminated = false := by
  rcases s with ⟨script, term, n⟩
  cases term
  · cases script with
    | nil => simp [FusedSrc.poll] at h
    | cons o rest =>
      cases o <;> simp [FusedSrc.poll] at h
      exact ⟨rfl, by rw [← h.2]⟩
  · simp [FusedSrc.poll] at h

/-- A `pending` answer preserves the fuse flag. -/
theorem FusedSrc.poll_pending_flag (s s2 : FusedSrc α)
    (h : s.poll = (.pending, s2)) :
    s2.terminated = s.terminated := by
  rcases s with ⟨script, term, n⟩
  cases term
  · cases script with
    | nil => simp [FusedSrc.poll] at h; rw [← h]
    | cons o rest =>
      cases o <;> simp [FusedSrc.poll] at h
      rw [← h]
  · simp [FusedSrc.poll] at h

/-- Once the source is terminated, a successful core poll leaves the whole
state untouched. -/
theorem poll_of_terminated (st : StreamBroadcastState α) (pos id tok : Nat)
    (ht : st.stream.terminated = true) (r : CorePoll α)
    (st2 : StreamBroadcastState α) (w : List Nat)
    (h : st.poll pos id tok = some (r, st2, w)) : st2 = st := by
  unfold StreamBroadcastState.poll at h
  split at h
  · split at h
    · exact absurd h (by simp)
    · split at h
      · injection h with h1
        injection h1 with hA hB
        injection hB with hC hD
        exact hC.symm
      · exact absurd h (by simp)
  · rw [FusedSrc.poll_terminated st.stream ht] at h
    injection h with h1
    injection h1 with hA hB
    injection hB with hC hD
    exact hC.symm

/-- Branch inversion for `StreamBroadcastState.poll`: a successful poll is a
cache hit (state untouched, nobody woken, served position strictly between
the cursor and the head), a source advance, end-of-stream, or pending, with
the listed state changes. -/
theorem poll_inversion (st : StreamBroadcastState α) (pos id tok : Nat)
    (r : CorePoll α) (st2 : StreamBroadcastState α) (w : List Nat)
    (h : st.poll pos id tok = some (r, st2, w)) :
    (∃ np x, r = .ready np x ∧ st2 = st ∧ w = [] ∧ pos < np ∧ np ≤ st.global_pos) ∨
    (∃ x, r = .ready (st.global_pos + 1) x ∧ st.global_pos ≤ pos ∧
      st.stream.terminated = false ∧ st2.stream.terminated = false ∧
      st2.global_pos = st.global_pos + 1 ∧ st2.cacheCap = st.cacheCap ∧
      st2.wakable = [] ∧ (st.WFCache → st2.WFCache)) ∨
    (r = .readyNone ∧ st2.stream.terminated = true ∧
      st2.global_pos = st.global_pos ∧ st2.cache = st.cache ∧
      st2.cacheCap = st.cacheCap ∧ st2.wakable = st.wakable) ∨
    (r = .pending ∧ st2.stream.terminated = st.stream.terminated ∧
      st2.global_pos = st.global_pos ∧ st2.cache = st.cache ∧
      st2.cacheCap = st.cacheCap ∧ st2.wakable = st.wakable ++ [(id, tok)]) := by
  unfold StreamBroadcastState.poll at h
  split at h
  next hgt =>
    split at h
    next => exact absurd h (by simp)
    next hcap =>
      split at h
      next result hget =>
        injection h with h1
        injection h1 with hA hB
        injection hB with hC hD
        left
        refine ⟨_, result, hA.symm, hC.symm, hD.symm, ?_, ?_⟩
        · split
          · omega
          · omega
        · split
          · omega
          · omega
      next => exact absurd h (by simp)
  next hgt =>
    split at h
    next x str hsp =>
      have hflag := FusedSrc.poll_item_flag st.stream str x hsp
      split at h
      next hlen =>
        injection h with h1
        injection h1 with hA hB
        injection hB with hC hD
        subst hC
        right; left
        refine ⟨x, hA.symm, by omega, hflag.1, hflag.2, rfl, rfl, rfl, ?_⟩
        intro hwf
        unfold StreamBroadcastState.WFCache at hwf ⊢
        simp only [List.length_append, List.length_singleton]
        omega
      next hlen =>
        split at h
        next => exact absurd h (by simp)
        next hcap =>
          split at h
          next hidx =>
            injection h with h1
            injection h1 with hA hB
            injection hB with hC hD
            subst hC
            right; left
            refine ⟨x, hA.symm, by omega, hflag.1, hflag.2, rfl, rfl, rfl, ?_⟩
            intro hwf
            unfold StreamBroadcastState.WFCache at hwf ⊢
            simp only [List.length_set]
            omega
          next => exact absurd h (by simp)
    next str hsp =>
      injection h with h1
      injection h1 with hA hB
      injection hB with hC hD
      subst hC
      right; right; left
      exact ⟨hA.symm, FusedSrc.poll_done_flag st.stream str hsp, rfl, rfl, rfl, rfl⟩
    next str hsp =>
      injection h with h1
      injection h1 with hA hB
      injection hB with hC hD
      subst hC
      right; right; right
      exact ⟨hA.symm, FusedSrc.poll_pending_flag st.stream str hsp, rfl, rfl, rfl, rfl⟩


/-- Per-call facts about `broadast_next`: the cursor never decreases (the
`debug_assert` guard), the head never decreases, termination of the source
is sticky, the cache invariant is preserved, and — while the source has not
terminated — a cursor at or below the head stays at or below the head. -/
theorem broadast_next_spec (st : StreamBroadcastState α) (pos id tok : Nat)
    (res : NextRes α) (pos2 : Nat) (st2 : StreamBroadcastState α) (w : List Nat)
    (h : broadast_next st pos id tok = some (res, pos2, st2, w)) :
    pos ≤ pos2 ∧ st.global_pos ≤ st2.global_pos ∧
    (st.stream.terminated = true → st2.stream.terminated = true) ∧
    (st.WFCache → st2.WFCache) ∧
    (st2.stream.terminated = false → pos ≤ st.global_pos → pos2 ≤ st2.global_pos) := by
  unfold broadast_next at h
  split at h
  next => exact absurd h (by simp)
  next new_pos x st2' w' heq =>
    split at h
    next => exact absurd h (by simp)
    next hgrow =>
      injection h with h1
      injection h1 with hA hB
      injection hB with hC hD
      injection hD with hE hF
      subst hC; subst hE; subst hF
      rcases poll_inversion st pos id tok _ _ _ heq with
        ⟨np, y, hr, hst, hw, hlt, hle⟩ | ⟨y, hr, hge, ht1, ht2, hg, hcap, hwk, hwf⟩ |
        ⟨hr, _⟩ | ⟨hr, _⟩
      · injection hr with hnp hy
        subst hst
        exact ⟨by omega, le_refl _, fun ht => ht, fun hw => hw, fun _ _ => by omega⟩
      · injection hr with hnp hy
        refine ⟨by omega, by omega, fun ht => absurd ht (by simp [ht1]), hwf,
          fun _ _ => by omega⟩
      · exact absurd hr (by simp)
      · exact absurd hr (by simp)
  next st2' w' heq =>
    injection h with h1
    injection h1 with hA hB
    injection hB with hC hD
    injection hD with hE hF
    subst hC; subst hE; subst hF
    rcases poll_inversion st pos id tok _ _ _ heq with
      ⟨np, y, hr, _⟩ | ⟨y, hr, _⟩ | ⟨hr, ht, hg, hc, hcap, hwk⟩ | ⟨hr, _⟩
    · exact absurd hr (by simp)
    · exact absurd hr (by simp)
    · refine ⟨by omega, by omega, fun _ => ht, ?_, fun h2 _ => absurd ht (by simp [h2])⟩
      intro hw
      unfold StreamBroadcastState.WFCache at hw ⊢
      rw [hc, hg, hcap]
      exact hw
    · exact absurd hr (by simp)
  next st2' w' heq =>
    injection h with h1
    injection h1 with hA hB
    injection hB with hC hD
    injection hD with hE hF
    subst hC; subst hE; subst hF
    rcases poll_inversion st pos id tok _ _ _ heq with
      ⟨np, y, hr, _⟩ | ⟨y, hr, _⟩ | ⟨hr, _⟩ | ⟨hr, ht, hg, hc, hcap, hwk⟩
    · exact absurd hr (by simp)
    · exact absurd hr (by simp)
    · exact absurd hr (by simp)
    · refine ⟨le_refl _, by omega, fun h2 => by rw [ht, h2], ?_, fun _ h2 => by omega⟩
      intro hw
      unfold StreamBroadcastState.WFCache at hw ⊢
      rw [hc, hg, hcap]
      exact hw

/-- `n` is not among the ids of `l` when all of them are below `n`. -/
theorem fresh_not_mem (l : List Handle) (n : Nat) (hl : ∀ h ∈ l, h.id < n) :
    n ∉ l.map Handle.id := by
  intro hmem
  obtain ⟨h, hm, hid⟩ := List.mem_map.1 hmem
  exact absurd (hl h hm) (by omega)

/-- Inserting a fresh element between two lists preserves `Nodup`. -/
theorem nodup_append_fresh (m1 m2 : List Nat) (a : Nat)
    (hd : (m1 ++ m2).Nodup) (h1 : a ∉ m1) (h2 : a ∉ m2) :
    ((m1 ++ [a]) ++ m2).Nodup := by
  rw [List.nodup_append] at hd ⊢
  obtain ⟨hd1, hd2, hdis⟩ := hd
  refine ⟨?_, hd2, ?_⟩
  · rw [List.nodup_append]
    refine ⟨hd1, List.nodup_singleton a, ?_⟩
    intro x hx hx2
    rw [List.mem_singleton] at hx2
    exact h1 (hx2 ▸ hx)
  · intro x hx hx2
    rcases List.mem_append.1 hx with hx | hx
    · exact hdis hx hx2
    · rw [List.mem_singleton] at hx
      exact h2 (hx ▸ hx2)

/-- Overwriting a handle's cursor in place leaves the list of ids unchanged. -/
theorem map_id_set (l : List Handle) (i : Nat) (h : Handle) (p : Nat)
    (hg : l.get? i = some h) :
    (l.set i ⟨p, h.id⟩).map Handle.id = l.map Handle.id := by
  induction l generalizing i with
  | nil => simp at hg
  | cons a t ih =>
    cases i with
    | zero =>
      simp only [List.get?] at hg
      injection hg with hg
      subst hg
      simp
    | succ n =>
      simp only [List.get?] at hg
      simp only [List.set, List.map_cons]
      rw [ih n hg]

/-- The reachability invariant of the whole system: the cache length is
determined by the head and the capacity; while the source has not
terminated, every cursor is at or below the head; all handle ids are below
the global counter and pairwise distinct. -/
structure SysInv (s : Sys α) : Prop where
  wf : s.core.WFCache
  posBound : ∀ h ∈ s.handles, s.core.stream.terminated = false →
    h.pos ≤ s.core.global_pos
  idLt : ∀ h ∈ s.handles, h.id < s.nextId
  idNodup : (s.handles.map Handle.id).Nodup

/-- The initial system satisfies the invariant. -/
theorem sysInv_init (outer : FusedSrc α) (size : Nat) :
    SysInv (Sys.init outer size) := by
  refine ⟨?_, ?_, ?_, ?_⟩
  · unfold StreamBroadcastState.WFCache Sys.init StreamBroadcastState.new
    simp
  · intro h hm _
    simp only [Sys.init, Sys.handles, List.append_nil, List.mem_singleton] at hm
    subst hm
    exact Nat.le_refl 0
  · intro h hm
    simp only [Sys.init, Sys.handles, List.append_nil, List.mem_singleton] at hm
    subst hm
    simp [Sys.init, create_id]
  · simp [Sys.init, Sys.handles]

/-- Appending a fresh element preserves `Nodup`. -/
theorem nodup_concat_fresh (m : List Nat) (a : Nat) (hd : m.Nodup) (ha : a ∉ m) :
    (m ++ [a]).Nodup := by
  rw [List.nodup_append]
  refine ⟨hd, List.nodup_singleton a, ?_⟩
  intro x hx hx2
  rw [List.mem_singleton] at hx2
  exact ha (hx2 ▸ hx)

/-- The invariant is preserved by every system step. -/
theorem sysInv_step (s : Sys α) (inv : SysInv s) (c : Cmd) : SysInv (s.step c) := by
  obtain ⟨hwf, hpos, hlt, hnd⟩ := inv
  have hndsplit : (s.strongs.map Handle.id ++ s.weaks.map Handle.id).Nodup := by
    rw [← List.map_append]; exact hnd
  have hfreshS : (create_id s.nextId).1 ∉ s.strongs.map Handle.id :=
    fresh_not_mem _ _ (fun h2 hm => hlt h2 (List.mem_append_left _ hm))
  have hfreshW : (create_id s.nextId).1 ∉ s.weaks.map Handle.id :=
    fresh_not_mem _ _ (fun h2 hm => hlt h2 (List.mem_append_right _ hm))
  cases c with
  | pollStrong i tok =>
    simp only [Sys.step]
    split
    next h hg =>
      cases hb : broadast_next s.core h.pos h.id tok with
      | none =>
        show SysInv s
        exact ⟨hwf, hpos, hlt, hnd⟩
      | some t =>
        obtain ⟨res, p2, c2, w⟩ := t
        show SysInv { core := c2, strongs := s.strongs.set i ⟨p2, h.id⟩,
                      weaks := s.weaks, nextId := s.nextId }
        obtain ⟨hm1, hm2, hm3, hm4, hm5⟩ := broadast_next_spec _ _ _ _ _ _ _ _ hb
        have hmem0 : h ∈ s.handles := List.mem_append_left _ (List.get?_mem hg)
        refine ⟨hm4 hwf, ?_, ?_, ?_⟩
        · intro h2 hmem ht2
          have hterm : s.core.stream.terminated = false := by
            cases hterm0 : s.core.stream.terminated
            · rfl
            · rw [hm3 hterm0] at ht2; cases ht2
          simp only [Sys.handles] at hmem
          rcases List.mem_append.1 hmem with hmem | hmem
          · rcases List.mem_or_eq_of_mem_set hmem with hmem | hmem
            · exact le_trans (hpos h2 (List.mem_append_left _ hmem) hterm) hm2
            · subst hmem
              exact hm5 ht2 (hpos h hmem0 hterm)
          · exact le_trans (hpos h2 (List.mem_append_right _ hmem) hterm) hm2
        · intro h2 hmem
          simp only [Sys.handles] at hmem
          rcases List.mem_append.1 hmem with hmem | hmem
          · rcases List.mem_or_eq_of_mem_set hmem with hmem | hmem
            · exact hlt h2 (List.mem_append_left _ hmem)
            · subst hmem
              exact hlt h hmem0
          · exact hlt h2 (List.mem_append_right _ hmem)
        · simp only [Sys.handles, List.map_append]
          rw [map_id_set s.strongs i h p2 hg, ← List.map_append]
          exact hnd
    next hg => exact ⟨hwf, hpos, hlt, hnd⟩
  | pollWeak i tok =>
    simp only [Sys.step]
    split
    next h hg =>
      split
      next halive =>
        cases hb : broadast_next s.core h.pos h.id tok with
        | none =>
          show SysInv s
          exact ⟨hwf, hpos, hlt, hnd⟩
        | some t =>
          obtain ⟨res, p2, c2, w⟩ := t
          show SysInv { core := c2, strongs := s.strongs,
                        weaks := s.weaks.set i ⟨p2, h.id⟩, nextId := s.nextId }
          obtain ⟨hm1, hm2, hm3, hm4, hm5⟩ := broadast_next_spec _ _ _ _ _ _ _ _ hb
          have hmem0 : h ∈ s.handles := List.mem_append_right _ (List.get?_mem hg)
          refine ⟨hm4 hwf, ?_, ?_, ?_⟩
          · intro h2 hmem ht2
            have hterm : s.core.stream.terminated = false := by
              cases hterm0 : s.core.stream.terminated
              · rfl
              · rw [hm3 hterm0] at ht2; cases ht2
            simp only [Sys.handles] at hmem
            rcases List.mem_append.1 hmem with hmem | hmem
            · exact le_trans (hpos h2 (List.mem_append_left _ hmem) hterm) hm2
            · rcases List.mem_or_eq_of_mem_set hmem with hmem | hmem
              · exact le_trans (hpos h2 (List.mem_append_right _ hmem) hterm) hm2
              · subst hmem
                exact hm5 ht2 (hpos h hmem0 hterm)
          · intro h2 hmem
            simp only [Sys.handles] at hmem
            rcases List.mem_append.1 hmem with hmem | hmem
            · exact hlt h2 (List.mem_append_left _ hmem)
            · rcases List.mem_or_eq_of_mem_set hmem with hmem | hmem
              · exact hlt h2 (List.mem_append_right _ hmem)
              · subst hmem
                exact hlt h hmem0
          · simp only [Sys.handles, List.map_append]
            rw [map_id_set s.weaks i h p2 hg, ← List.map_append]
            exact hnd
      next halive => exact ⟨hwf, hpos, hlt, hnd⟩
    next hg => exact ⟨hwf, hpos, hlt, hnd⟩
  | cloneStrong i =>
    simp only [Sys.step]
    split
    next h hg =>
      refine ⟨hwf, ?_, ?_, ?_⟩
      · intro h2 hmem ht2
        simp only [Sys.handles] at hmem
        rcases List.mem_append.1 hmem with hmem | hmem
        · rcases List.mem_append.1 hmem with hmem | hmem
          · exact hpos h2 (List.mem_append_left _ hmem) ht2
          · rw [List.mem_singleton] at hmem
            subst hmem
            exact Nat.le_refl _
        · exact hpos h2 (List.mem_append_right _ hmem) ht2
      · intro h2 hmem
        simp only [Sys.handles] at hmem
        rcases List.mem_append.1 hmem with hmem | hmem
        · rcases List.mem_append.1 hmem with hmem | hmem
          · exact lt_trans (hlt h2 (List.mem_append_left _ hmem)) (by simp [create_id])
          · rw [List.mem_singleton] at hmem
            subst hmem
            simp [create_id]
        · exact lt_trans (hlt h2 (List.mem_append_right _ hmem)) (by simp [create_id])
      · simp only [Sys.handles, List.map_append, List.map_singleton]
        exact nodup_append_fresh _ _ _ hndsplit hfreshS hfreshW
    next hg => exact ⟨hwf, hpos, hlt, hnd⟩
  | cloneWeak i =>
    simp only [Sys.step]
    split
    next h hg =>
      refine ⟨hwf, ?_, ?_, ?_⟩
      · intro h2 hmem ht2
        simp only [Sys.handles] at hmem
        rcases List.mem_append.1 hmem with hmem | hmem
        · exact hpos h2 (List.mem_append_left _ hmem) ht2
        · rcases List.mem_append.1 hmem with hmem | hmem
          · exact hpos h2 (List.mem_append_right _ hmem) ht2
          · rw [List.mem_singleton] at hmem
            subst hmem
            by_cases ha : s.alive = true <;> simp [ha]
      · intro h2 hmem
        simp only [Sys.handles] at hmem
        rcases List.mem_append.1 hmem with hmem | hmem
        · exact lt_trans (hlt h2 (List.mem_append_left _ hmem)) (by simp [create_id])
        · rcases List.mem_append.1 hmem with hmem | hmem
          · exact lt_trans (hlt h2 (List.mem_append_right _ hmem)) (by simp [create_id])
          · rw [List.mem_singleton] at hmem
            subst hmem
            simp [create_id]
      · simp only [Sys.handles, List.map_append, List.map_singleton, ← List.append_assoc]
        refine nodup_concat_fresh _ _ hndsplit ?_
        rw [List.mem_append]
        rintro (hx | hx)
        · exact hfreshS hx
        · exact hfreshW hx
    next hg => exact ⟨hwf, hpos, hlt, hnd⟩
  | downgrade i =>
    simp only [Sys.step]
    split
    next h hg =>
      have hmem0 : h ∈ s.handles := List.mem_append_left _ (List.get?_mem hg)
      refine ⟨hwf, ?_, ?_, ?_⟩
      · intro h2 hmem ht2
        simp only [Sys.handles] at hmem
        rcases List.mem_append.1 hmem with hmem | hmem
        · exact hpos h2 (List.mem_append_left _ hmem) ht2
        · rcases List.mem_append.1 hmem with hmem | hmem
          · exact hpos h2 (List.mem_append_right _ hmem) ht2
          · rw [List.mem_singleton] at hmem
            subst hmem
            exact hpos h hmem0 ht2
      · intro h2 hmem
        simp only [Sys.handles] at hmem
        rcases List.mem_append.1 hmem with hmem | hmem
        · exact lt_trans (hlt h2 (List.mem_append_left _ hmem)) (by simp [create_id])
        · rcases List.mem_append.1 hmem with hmem | hmem
          · exact lt_trans (hlt h2 (List.mem_append_right _ hmem)) (by simp [create_id])
          · rw [List.mem_singleton] at hmem
            subst hmem
            simp [create_id]
      · simp only [Sys.handles, List.map_append, List.map_singleton, ← List.append_assoc]
        refine nodup_concat_fresh _ _ hndsplit ?_
        rw [List.mem_append]
        rintro (hx | hx)
        · exact hfreshS hx
        · exact hfreshW hx
    next hg => exact ⟨hwf, hpos, hlt, hnd⟩
  | upgrade i =>
    simp only [Sys.step]
    split
    next h hg =>
      split
      next halive =>
        have hmem0 : h ∈ s.handles := List.mem_append_right _ (List.get?_mem hg)
        refine ⟨hwf, ?_, ?_, ?_⟩
        · intro h2 hmem ht2
          simp only [Sys.handles] at hmem
          rcases List.mem_append.1 hmem with hmem | hmem
          · rcases List.mem_append.1 hmem with hmem | hmem
            · exact hpos h2 (List.mem_append_left _ hmem) ht2
            · rw [List.mem_singleton] at hmem
              subst hmem
              exact hpos h hmem0 ht2
          · exact hpos h2 (List.mem_append_right _ hmem) ht2
        · intro h2 hmem
          simp only [Sys.handles] at hmem
          rcases List.mem_append.1 hmem with hmem | hmem
          · rcases List.mem_append.1 hmem with hmem | hmem
            · exact lt_trans (hlt h2 (List.mem_append_left _ hmem)) (by simp [create_id])
            · rw [List.mem_singleton] at hmem
              subst hmem
              simp [create_id]
          · exact lt_trans (hlt h2 (List.mem_append_right _ hmem)) (by simp [create_id])
        · simp only [Sys.handles, List.map_append, List.map_singleton]
          exact nodup_append_fresh _ _ _ hndsplit hfreshS hfreshW
      next halive => exact ⟨hwf, hpos, hlt, hnd⟩
    next hg => exact ⟨hwf, hpos, hlt, hnd⟩
  | dropStrong i =>
    simp only [Sys.step]
    split
    next h hg =>
      have hsub : (s.strongs.eraseIdx i).Sublist s.strongs := List.eraseIdx_sublist _ _
      refine ⟨hwf, ?_, ?_, ?_⟩
      · intro h2 hmem ht2
        simp only [Sys.handles] at hmem
        rcases List.mem_append.1 hmem with hmem | hmem
        · exact hpos h2 (List.mem_append_left _ (hsub.subset hmem)) ht2
        · exact hpos h2 (List.mem_append_right _ hmem) ht2
      · intro h2 hmem
        simp only [Sys.handles] at hmem
        rcases List.mem_append.1 hmem with hmem | hmem
        · exact hlt h2 (List.mem_append_left _ (hsub.subset hmem))
        · exact hlt h2 (List.mem_append_right _ hmem)
      · exact List.Nodup.sublist
          (List.Sublist.map Handle.id (hsub.append_right s.weaks)) hnd
    next hg => exact ⟨hwf, hpos, hlt, hnd⟩

/-- The invariant holds in every state reachable from an initial system. -/
theorem sysInv_run (s : Sys α) (inv : SysInv s) (cs : List Cmd) :
    SysInv (s.run cs) := by
  induction cs generalizing s with
  | nil => exact inv
  | cons c rest ih => exact ih _ (sysInv_step s inv c)

/-- `broadast_next` passes the core state and woken list straight through
from the underlying core poll. -/
theorem broadast_next_poll (st : StreamBroadcastState α) (pos id tok : Nat)
    (res : NextRes α) (pos2 : Nat) (st2 : StreamBroadcastState α) (w : List Nat)
    (h : broadast_next st pos id tok = some (res, pos2, st2, w)) :
    ∃ r, st.poll pos id tok = some (r, st2, w) := by
  unfold broadast_next at h
  split at h
  next => exact absurd h (by simp)
  next new_pos x st2' w' heq =>
    split at h
    next => exact absurd h (by simp)
    next =>
      injection h with h1
      injection h1 with hA hB
      injection hB with hC hD
      injection hD with hE hF
      subst hE; subst hF
      exact ⟨_, heq⟩
  next st2' w' heq =>
    injection h with h1
    injection h1 with hA hB
    injection hB with hC hD
    injection hD with hE hF
    subst hE; subst hF
    exact ⟨_, heq⟩
  next st2' w' heq =>
    injection h with h1
    injection h1 with hA hB
    injection hB with hC hD
    injection hD with hE hF
    subst hE; subst hF
    exact ⟨_, heq⟩

/-- Once the source is terminated, no step changes the core at all: the
cache path leaves it untouched and the head path answers `done` without
polling the inner stream. -/
theorem step_core_of_terminated (s : Sys α) (c : Cmd)
    (ht : s.core.stream.terminated = true) : (s.step c).core = s.core := by
  cases c with
  | pollStrong i tok =>
    simp only [Sys.step]
    split
    next h hg =>
      cases hb : broadast_next s.core h.pos h.id tok with
      | none => rfl
      | some t =>
        obtain ⟨res, p2, c2, w⟩ := t
        show c2 = s.core
        obtain ⟨r, hp⟩ := broadast_next_poll _ _ _ _ _ _ _ _ hb
        exact poll_of_terminated s.core h.pos h.id tok ht r c2 w hp
    next => rfl
  | pollWeak i tok =>
    simp only [Sys.step]
    split
    next h hg =>
      split
      next =>
        cases hb : broadast_next s.core h.pos h.id tok with
        | none => rfl
        | some t =>
          obtain ⟨res, p2, c2, w⟩ := t
          show c2 = s.core
          obtain ⟨r, hp⟩ := broadast_next_poll _ _ _ _ _ _ _ _ hb
          exact poll_of_terminated s.core h.pos h.id tok ht r c2 w hp
      next => rfl
    next => rfl
  | cloneStrong i =>
    simp only [Sys.step]
    split
    next => rfl
    next => rfl
  | cloneWeak i =>
    simp only [Sys.step]
    split
    next => rfl
    next => rfl
  | downgrade i =>
    simp only [Sys.step]
    split
    next => rfl
    next => rfl
  | upgrade i =>
    simp only [Sys.step]
    split
    next =>
      split
      next => rfl
      next => rfl
    next => rfl
  | dropStrong i =>
    simp only [Sys.step]
    split
    next => rfl
    next => rfl

/-- Once the source is terminated, whole command sequences leave the core
(including the ghost inner-poll counter) untouched. -/
theorem run_core_of_terminated (s : Sys α) (cs : List Cmd)
    (ht : s.core.stream.terminated = true) : (Sys.run s cs).core = s.core := by
  induction cs generalizing s with
  | nil => rfl
  | cons c rest ih =>
    have h1 := step_core_of_terminated s c ht
    have ht2 : (s.step c).core.stream.terminated = true := by rw [h1]; exact ht
    show (Sys.run (s.step c) rest).core = s.core
    rw [ih (s.step c) ht2, h1]

/-- A handle at or past the head of a terminated stream gets `done`, the
cursor advances by one, and the core — in particular the source — is left
exactly as it was. -/
theorem broadast_next_terminated_at_head (st : StreamBroadcastState α)
    (pos id tok : Nat) (ht : st.stream.terminated = true)
    (hhead : st.global_pos ≤ pos) :
    broadast_next st pos id tok = some (.done, pos + 1, st, []) := by
  unfold broadast_next StreamBroadcastState.poll
  rw [if_neg (by omega), FusedSrc.poll_terminated st.stream ht]

/-- A successful `ready` result strictly exceeds the request position,
provided the cursor is not past the head of a live stream (true in every
reachable state). -/
theorem poll_ready_grows (st : StreamBroadcastState α) (pos id tok np : Nat)
    (x : α) (st2 : StreamBroadcastState α) (w : List Nat)
    (hreach : pos ≤ st.global_pos ∨ st.stream.terminated = true)
    (hp : st.poll pos id tok = some (.ready np x, st2, w)) : pos < np := by
  rcases poll_inversion st pos id tok _ _ _ hp with
    ⟨np2, y, hr, _, _, hlt2, _⟩ | ⟨y, hr, hge, ht1, _⟩ | ⟨hr, _⟩ | ⟨hr, _⟩
  · injection hr with h1 h2
    omega
  · injection hr with h1 h2
    rcases hreach with hle | hterm
    · omega
    · rw [hterm] at ht1; cases ht1
  · exact absurd hr (by simp)
  · exact absurd hr (by simp)

/-- C1 (counterexample to the literal claim): source `[10, done]`, capacity
2. A second handle is cloned at position 0; the first handle drains the item
and then observes end-of-stream, terminating the source. The second handle's
next call — a call made after the source signalled completion — still
returns an item (the cached `10`), not end-of-stream. -/
theorem c1_counterexample :
    let s := Sys.run (Sys.init (⟨[.item 10, .done], false, 0⟩ : FusedSrc Nat) 2)
      [.cloneStrong 0, .pollStrong 0 0, .pollStrong 0 0]
    s.core.stream.terminated = true ∧
    s.strongs.get? 1 = some ⟨0, 1⟩ ∧
    broadast_next s.core 0 1 0 = some (.item 0 10, 1, s.core, []) := by
  decide

/-- C1 (amended): once the inner stream has signalled completion, no
subsequent call from any handle (strong or weak) changes the core or polls
the source again — the entire core, including the ghost inner-poll counter,
is frozen — and every later call from a handle whose cursor is at or past
the head returns end-of-stream without touching the source. (Lagging
handles are still served cached items, see the counterexample.) -/
theorem c1_sticky_completion (s : Sys α) (cs : List Cmd)
    (ht : s.core.stream.terminated = true) (st : StreamBroadcastState α)
    (pos id tok : Nat) (ht2 : st.stream.terminated = true)
    (hhead : st.global_pos ≤ pos) :
    (Sys.run s cs).core = s.core ∧
    broadast_next st pos id tok = some (.done, pos + 1, st, []) :=
  ⟨run_core_of_terminated s cs ht,
   broadast_next_terminated_at_head st pos id tok ht2 hhead⟩

/-- C1 witness: a concrete terminated system is frozen by a further poll,
and a concrete at-head call returns end-of-stream leaving the state as it
was. -/
theorem c1_sticky_completion_witness :
    (Sys.run (⟨⟨⟨[], true, 1⟩, 0, [], 1, []⟩, [⟨0, 0⟩], [], 1⟩ : Sys Nat)
      [.pollStrong 0 0]).core = ⟨⟨[], true, 1⟩, 0, [], 1, []⟩ ∧
    broadast_next (⟨⟨[], true, 1⟩, 0, [], 1, []⟩ : StreamBroadcastState Nat) 0 0 0 =
      some (.done, 1, ⟨⟨[], true, 1⟩, 0, [], 1, []⟩, []) :=
  c1_sticky_completion _ _ rfl _ 0 0 0 rfl (Nat.le_refl 0)

/-- C2: construction with capacity 0 is NOT rejected — `new` happily builds
a state with capacity 0 (no error path exists), and the very first poll that
must store an item reaches `global_pos % 0`, which panics in Rust (modelled
as `none`). The claim (and the spec) demand explicit rejection at
construction time; the code inherits the undefined case instead. -/
theorem c2_capacity_zero_accepted :
    StreamBroadcastState.new (⟨[.item 5, .done], false, 0⟩ : FusedSrc Nat) 0 =
      ⟨⟨[.item 5, .done], false, 0⟩, 0, [], 0, []⟩ ∧
    (StreamBroadcastState.new (⟨[.item 5, .done], false, 0⟩ : FusedSrc Nat) 0).poll
      0 0 0 = none := by
  decide

/-- C3 (counterexample to the literal claim): source that completes
immediately, capacity 1. Two polls on the only handle leave its cursor at 2
while `global_pos` is still 0, so the cursor exceeds `global_pos + 1` — the
`Ready(None)` branch of `broadast_next` increments the cursor past the
bound on every end-of-stream read. -/
theorem c3_counterexample :
    let s := Sys.run (Sys.init (⟨[.done], false, 0⟩ : FusedSrc Nat) 1)
      [.pollStrong 0 0, .pollStrong 0 0]
    s.strongs = [⟨2, 0⟩] ∧ s.core.global_pos = 0 ∧
    ¬(2 ≤ s.core.global_pos + 1) := by
  decide

/-- C3 (amended): a handle's cursor is non-decreasing across its own calls,
and while the source has not terminated every reachable handle's cursor is
at most `global_pos + 1`; only after end-of-stream do the cursor-advancing
`Ready(None)` reads push it beyond that bound (see the counterexample). -/
theorem c3_cursor_bounds (st : StreamBroadcastState α) (pos id tok : Nat)
    (res : NextRes α) (pos2 : Nat) (st2 : StreamBroadcastState α) (w : List Nat)
    (hb : broadast_next st pos id tok = some (res, pos2, st2, w))
    (outer : FusedSrc α) (size : Nat) (cs : List Cmd) (h2 : Handle)
    (hm : h2 ∈ (Sys.run (Sys.init outer size) cs).handles)
    (ht : (Sys.run (Sys.init outer size) cs).core.stream.terminated = false) :
    pos ≤ pos2 ∧
    h2.pos ≤ (Sys.run (Sys.init outer size) cs).core.global_pos + 1 := by
  refine ⟨(broadast_next_spec st pos id tok res pos2 st2 w hb).1, ?_⟩
  have := (sysInv_run _ (sysInv_init outer size) cs).posBound h2 hm ht
  omega

/-- C3 witness: a concrete successful call does not decrease the cursor,
and a concrete reachable handle respects the bound. -/
theorem c3_cursor_bounds_witness :
    (0 : Nat) ≤ 1 ∧
    Handle.pos ⟨0, 0⟩ ≤
      (Sys.run (Sys.init (⟨[], false, 0⟩ : FusedSrc Nat) 1) []).core.global_pos + 1 :=
  c3_cursor_bounds (⟨⟨[.item 5], false, 0⟩, 0, [], 1, []⟩ : StreamBroadcastState Nat)
    0 0 0 (.item 0 5) 1 ⟨⟨[], false, 1⟩, 1, [5], 1, []⟩ [] (by decide)
    ⟨[], false, 0⟩ 1 [] ⟨0, 0⟩ (by decide) rfl

/-- C4: lagging-consumer clamp. With the cursor strictly below the head, a
positive capacity and the reachable cache shape, the served position is
`global_pos - C` when the lag exceeds `C` and the cursor itself otherwise;
the returned value is the cached item at slot `served % C`, the returned
new position is `served + 1`, and the whole state — in particular the
source — is left untouched (and nobody is woken). -/
theorem c4_lagging_clamp (st : StreamBroadcastState α) (pos id tok : Nat)
    (hwf : st.WFCache) (hcap : 1 ≤ st.cacheCap) (hlag : pos < st.global_pos)
    (outer : FusedSrc α) (size : Nat) (cs : List Cmd) :
    (∃ x, st.cache.get? ((if st.global_pos - pos > st.cacheCap
        then st.global_pos - st.cacheCap else pos) % st.cacheCap) = some x ∧
      st.poll pos id tok = some (.ready ((if st.global_pos - pos > st.cacheCap
        then st.global_pos - st.cacheCap else pos) + 1) x, st, [])) ∧
    (Sys.run (Sys.init outer size) cs).core.WFCache := by
  refine ⟨?_, (sysInv_run _ (sysInv_init outer size) cs).wf⟩
  unfold StreamBroadcastState.WFCache at hwf
  have hsrv_lt : (if st.global_pos - pos > st.cacheCap
      then st.global_pos - st.cacheCap else pos) < st.global_pos := by
    split <;> omega
  have hmod : (if st.global_pos - pos > st.cacheCap
      then st.global_pos - st.cacheCap else pos) % st.cacheCap < st.cacheCap :=
    Nat.mod_lt _ (by omega)
  have hidx : (if st.global_pos - pos > st.cacheCap
      then st.global_pos - st.cacheCap else pos) % st.cacheCap < st.cache.length := by
    by_cases hc : st.cacheCap ≤ st.global_pos
    · omega
    · have hlt2 : (if st.global_pos - pos > st.cacheCap
          then st.global_pos - st.cacheCap else pos) < st.cacheCap := by omega
      rw [Nat.mod_eq_of_lt hlt2]
      omega
  refine ⟨st.cache.get ⟨_, hidx⟩, List.get?_eq_get hidx, ?_⟩
  unfold StreamBroadcastState.poll
  rw [if_pos hlag, if_neg (by omega : ¬ st.cacheCap = 0), List.get?_eq_get hidx]

/-- C4 witness: head at 2, capacity 2, cache `[10, 11]`, cursor 0 — lag of 2
does not exceed the capacity, so position 0 itself is served from slot 0. -/
theorem c4_lagging_clamp_witness :
    (∃ x, ((⟨⟨[], false, 0⟩, 2, [10, 11], 2, []⟩ : StreamBroadcastState Nat)).cache.get?
        ((if 2 - 0 > 2 then 2 - 2 else 0) % 2) = some x ∧
      (⟨⟨[], false, 0⟩, 2, [10, 11], 2, []⟩ : StreamBroadcastState Nat).poll 0 7 0 =
        some (.ready ((if 2 - 0 > 2 then 2 - 2 else 0) + 1) x,
          ⟨⟨[], false, 0⟩, 2, [10, 11], 2, []⟩, [])) ∧
    (Sys.run (Sys.init (⟨[.item 4], false, 0⟩ : FusedSrc Nat) 2)
      [.pollStrong 0 0]).core.WFCache :=
  c4_lagging_clamp (⟨⟨[], false, 0⟩, 2, [10, 11], 2, []⟩ : StreamBroadcastState Nat)
    0 7 0 (by unfold StreamBroadcastState.WFCache; decide) (by decide) (by decide)
    (⟨[.item 4], false, 0⟩ : FusedSrc Nat) 2 [.pollStrong 0 0]

/-- C5: skip-count translation. Under the reachable-cursor condition (the
cursor is at or below the head, or the source has terminated), every
`Ready(item, new_position)` core result strictly exceeds the old cursor,
and the handle turns it into the pair `(new_position - old - 1, item)`
while updating its cursor to `new_position`. -/
theorem c5_skip_translation (st : StreamBroadcastState α) (pos id tok np : Nat)
    (x : α) (st2 : StreamBroadcastState α) (w : List Nat)
    (hreach : pos ≤ st.global_pos ∨ st.stream.terminated = true)
    (hp : st.poll pos id tok = some (.ready np x, st2, w))
    (outer : FusedSrc α) (size : Nat) (cs : List Cmd) (h2 : Handle)
    (hm : h2 ∈ (Sys.run (Sys.init outer size) cs).handles) :
    (pos < np ∧
      broadast_next st pos id tok = some (.item (np - pos - 1) x, np, st2, w)) ∧
    (h2.pos ≤ (Sys.run (Sys.init outer size) cs).core.global_pos ∨
      (Sys.run (Sys.init outer size) cs).core.stream.terminated = true) := by
  have hgrow := poll_ready_grows st pos id tok np x st2 w hreach hp
  refine ⟨⟨hgrow, ?_⟩, ?_⟩
  · unfold broadast_next
    simp only [hp]
    rw [if_neg (by omega)]
  · cases hterm : (Sys.run (Sys.init outer size) cs).core.stream.terminated with
    | true => exact Or.inr rfl
    | false =>
      exact Or.inl ((sysInv_run _ (sysInv_init outer size) cs).posBound h2 hm hterm)

/-- C5 witness: a fresh source yielding 7 — the core returns position 1, the
handle reports skip count 0 and moves its cursor from 0 to 1. -/
theorem c5_skip_translation_witness :
    ((0 : Nat) < 1 ∧
      broadast_next (⟨⟨[.item 7], false, 0⟩, 0, [], 1, []⟩ : StreamBroadcastState Nat)
        0 0 0 = some (.item (1 - 0 - 1) 7, 1, ⟨⟨[], false, 1⟩, 1, [7], 1, []⟩, [])) ∧
    (Handle.pos ⟨0, 0⟩ ≤
        (Sys.run (Sys.init (⟨[], false, 0⟩ : FusedSrc Nat) 1) []).core.global_pos ∨
      (Sys.run (Sys.init (⟨[], false, 0⟩ : FusedSrc Nat) 1) []).core.stream.terminated
        = true) :=
  c5_skip_translation (⟨⟨[.item 7], false, 0⟩, 0, [], 1, []⟩ : StreamBroadcastState Nat)
    0 0 0 1 7 ⟨⟨[], false, 1⟩, 1, [7], 1, []⟩ [] (Or.inl (Nat.le_refl 0)) (by decide)
    (⟨[], false, 0⟩ : FusedSrc Nat) 1 [] ⟨0, 0⟩ (by decide)

/-- C6 (counterexample to the literal claim): one consumer polls twice while
the source stays pending — the registry ends up holding two entries for
consumer id 0, so it is NOT a mapping with at most one entry per id. -/
theorem c6_counterexample :
    let s := Sys.run (Sys.init (⟨[], false, 0⟩ : FusedSrc Nat) 1)
      [.pollStrong 0 5, .pollStrong 0 7]
    s.core.wakable = [(0, 5), (0, 7)] ∧
    ¬(s.core.wakable.map Prod.fst).Nodup := by
  decide

/-- C6 (amended): when a poll finds the source not ready, the caller's
`(id, waker)` entry is appended to the registry before `Pending` is
returned — it is neither deduplicated nor overwritten, so repeated pending
polls by the same consumer stack duplicate entries (see counterexample);
the head, the cache and the capacity are untouched on this path. -/
theorem c6_pending_appends (st : StreamBroadcastState α) (pos id tok : Nat)
    (st2 : StreamBroadcastState α) (w : List Nat)
    (hp : st.poll pos id tok = some (.pending, st2, w)) :
    st2.wakable = st.wakable ++ [(id, tok)] ∧
    st2.global_pos = st.global_pos ∧ st2.cache = st.cache := by
  rcases poll_inversion st pos id tok _ _ _ hp with
    ⟨np, y, hr, _⟩ | ⟨y, hr, _⟩ | ⟨hr, _⟩ | ⟨hr, h2, h3, h4, h5, h6⟩
  · exact absurd hr (by simp)
  · exact absurd hr (by simp)
  · exact absurd hr (by simp)
  · exact ⟨h6, h3, h4⟩

/-- C6 witness: a pending poll by consumer 0 with waker 7 appends `(0, 7)`
to a registry already holding an entry for id 0. -/
theorem c6_pending_appends_witness :
    ([((0 : Nat), (5 : Nat)), (0, 7)] : List (Nat × Nat)) = [(0, 5)] ++ [(0, 7)] ∧
    (0 : Nat) = 0 ∧ ([] : List Nat) = [] := by
  have := c6_pending_appends
    (⟨⟨[], false, 0⟩, 0, [], 1, [(0, 5)]⟩ : StreamBroadcastState Nat) 0 0 7
    ⟨⟨[], false, 1⟩, 0, [], 1, [(0, 5), (0, 7)]⟩ [] (by decide)
  exact this

/-- C7: successful advance. At the head, with a positive capacity and the
reachable cache shape, a source item drains the waiter registry waking
exactly the entries whose id differs from the caller's, stores the item in
slot `global_pos % C` (appending while filling, overwriting the oldest
occupant once full), increments the head, and returns the item at the
incremented position. -/
theorem c7_advance (st : StreamBroadcastState α) (pos id tok : Nat) (x : α)
    (str : FusedSrc α) (hwf : st.WFCache) (hcap : 1 ≤ st.cacheCap)
    (hhead : st.global_pos ≤ pos) (hs : st.stream.poll = (.item x, str))
    (outer : FusedSrc α) (size : Nat) (cs : List Cmd) :
    (st.poll pos id tok = some (.ready (st.global_pos + 1) x,
      ⟨str, st.global_pos + 1,
        if st.cache.length < st.cacheCap then st.cache ++ [x]
        else st.cache.set (st.global_pos % st.cacheCap) x, st.cacheCap, []⟩,
      (st.wakable.filter (fun kw => kw.1 != id)).map Prod.snd) ∧
    (if st.cache.length < st.cacheCap then st.cache ++ [x]
     else st.cache.set (st.global_pos % st.cacheCap) x).get?
        (st.global_pos % st.cacheCap) = some x) ∧
    (Sys.run (Sys.init outer size) cs).core.WFCache := by
  refine ⟨?_, (sysInv_run _ (sysInv_init outer size) cs).wf⟩
  unfold StreamBroadcastState.WFCache at hwf
  constructor
  · unfold StreamBroadcastState.poll
    rw [if_neg (by omega : ¬ st.global_pos > pos)]
    simp only [hs]
    by_cases hlen : st.cache.length < st.cacheCap
    · rw [if_pos hlen, if_pos hlen]
    · rw [if_neg hlen, if_neg hlen, if_neg (by omega : ¬ st.cacheCap = 0),
        if_pos (by
          have := Nat.mod_lt st.global_pos (show 0 < st.cacheCap by omega)
          omega : st.global_pos % st.cacheCap < st.cache.length)]
  · by_cases hlen : st.cache.length < st.cacheCap
    · rw [if_pos hlen]
      have hgc : st.global_pos < st.cacheCap := by omega
      rw [Nat.mod_eq_of_lt hgc]
      have hgl : st.global_pos = st.cache.length := by omega
      rw [hgl]
      exact List.get?_concat_length _ _
    · rw [if_neg hlen]
      have hidx : st.global_pos % st.cacheCap < st.cache.length := by
        have := Nat.mod_lt st.global_pos (show 0 < st.cacheCap by omega)
        omega
      exact List.get?_set_eq_of_lt x hidx

/-- C7 witness: a full cache `[5, 6]` (capacity 2, head 2), waiters for ids
3 and 0; caller id 0 at the head receives 9, slot 0 is overwritten, the
registry is drained and only the waker of id 3 is woken. -/
theorem c7_advance_witness :
    ((⟨⟨[.item 9], false, 0⟩, 2, [5, 6], 2, [(3, 30), (0, 40)]⟩ :
        StreamBroadcastState Nat).poll 2 0 0 =
      some (.ready (2 + 1) 9,
        ⟨⟨[], false, 1⟩, 2 + 1,
          if ([5, 6] : List Nat).length < 2 then [5, 6] ++ [9]
          else ([5, 6] : List Nat).set (2 % 2) 9, 2, []⟩,
        (([(3, 30), (0, 40)] : List (Nat × Nat)).filter
          (fun kw => kw.1 != 0)).map Prod.snd) ∧
    (if ([5, 6] : List Nat).length < 2 then [5, 6] ++ [9]
     else ([5, 6] : List Nat).set (2 % 2) 9).get? (2 % 2) = some 9) ∧
    (Sys.run (Sys.init (⟨[.item 4], false, 0⟩ : FusedSrc Nat) 1)
      [.pollStrong 0 0]).core.WFCache :=
  c7_advance (⟨⟨[.item 9], false, 0⟩, 2, [5, 6], 2, [(3, 30), (0, 40)]⟩ :
      StreamBroadcastState Nat) 2 0 0 9 ⟨[], false, 1⟩
    (by unfold StreamBroadcastState.WFCache; decide) (by decide) (by decide)
    (by decide) (⟨[.item 4], false, 0⟩ : FusedSrc Nat) 1 [.pollStrong 0 0]

/-- A delivered item always moves the cursor strictly forward (enforced by
the `debug_assert` guard in `broadast_next`). -/
theorem broadast_next_item_grows (st : StreamBroadcastState α)
    (pos id tok skip : Nat) (x : α) (pos2 : Nat)
    (st2 : StreamBroadcastState α) (w : List Nat)
    (h : broadast_next st pos id tok = some (.item skip x, pos2, st2, w)) :
    pos < pos2 := by
  unfold broadast_next at h
  split at h
  next => exact absurd h (by simp)
  next new_pos y st2' w' heq =>
    split at h
    next => exact absurd h (by simp)
    next hgrow =>
      injection h with h1
      injection h1 with hA hB
      injection hB with hC hD
      omega
  next st2' w' heq => exact absurd h (by simp)
  next st2' w' heq => exact absurd h (by simp)

/-- C8 (counterexample to the literal claim): source `[10, 11, 12]`,
capacity 3. Handle 1 (cloned at position 0) reads 10, then the original
handle 0 — still at cursor 0 — is cloned, creating handle 2 at the head 1.
The original's next call still delivers the item of sequence number 0,
which was produced (and consumed by handle 1) before that clone, so the
original does NOT observe only items produced after the clone. -/
theorem c8_counterexample :
    let s := Sys.run (Sys.init (⟨[.item 10, .item 11, .item 12], false, 0⟩ :
        FusedSrc Nat) 3) [.cloneStrong 0, .pollStrong 1 0, .cloneStrong 0]
    s.core.global_pos = 1 ∧
    s.strongs.get? 2 = some ⟨1, 2⟩ ∧
    s.strongs.get? 0 = some ⟨0, 0⟩ ∧
    broadast_next s.core 0 0 0 = some (.item 0 10, 1, s.core, []) := by
  decide

/-- C8 (amended): `clone()` appends a new strong handle sharing the same
(unchanged) core, whose cursor equals the core's `global_pos` at the moment
of cloning and whose id is fresh; and every delivered item strictly
advances the receiving cursor, so the CLONE can only ever observe items of
sequence number at least the head at its creation — the ORIGINAL, however,
continues from its own cursor and may still observe items produced before
the clone (see the counterexample). -/
theorem c8_clone_at_present (s : Sys α) (i : Nat) (h : Handle)
    (hg : s.strongs.get? i = some h) (st : StreamBroadcastState α)
    (pos id tok skip : Nat) (x : α) (pos2 : Nat)
    (st2 : StreamBroadcastState α) (w : List Nat)
    (hb : broadast_next st pos id tok = some (.item skip x, pos2, st2, w)) :
    ((s.step (.cloneStrong i)).strongs =
        s.strongs ++ [⟨s.core.global_pos, (create_id s.nextId).1⟩] ∧
      (s.step (.cloneStrong i)).core = s.core ∧
      (s.step (.cloneStrong i)).nextId = (create_id s.nextId).2) ∧
    pos < pos2 := by
  refine ⟨?_, broadast_next_item_grows st pos id tok skip x pos2 st2 w hb⟩
  have hg2 : s.strongs[i]? = some h := by rw [← List.get?_eq_getElem?]; exact hg
  simp [Sys.step, hg2]

/-- C8 witness: a concrete clone at head 5 and a concrete delivered item
moving the cursor 0 to 1. -/
theorem c8_clone_at_present_witness :
    ((Sys.step (⟨⟨⟨[], false, 0⟩, 5, [], 1, []⟩, [⟨5, 0⟩], [], 1⟩ : Sys Nat)
        (.cloneStrong 0)).strongs = [⟨5, 0⟩] ++ [⟨5, (create_id 1).1⟩] ∧
      (Sys.step (⟨⟨⟨[], false, 0⟩, 5, [], 1, []⟩, [⟨5, 0⟩], [], 1⟩ : Sys Nat)
        (.cloneStrong 0)).core = ⟨⟨[], false, 0⟩, 5, [], 1, []⟩ ∧
      (Sys.step (⟨⟨⟨[], false, 0⟩, 5, [], 1, []⟩, [⟨5, 0⟩], [], 1⟩ : Sys Nat)
        (.cloneStrong 0)).nextId = (create_id 1).2) ∧
    (0 : Nat) < 1 :=
  c8_clone_at_present (⟨⟨⟨[], false, 0⟩, 5, [], 1, []⟩, [⟨5, 0⟩], [], 1⟩ : Sys Nat)
    0 ⟨5, 0⟩ (by decide)
    (⟨⟨[.item 7], false, 0⟩, 0, [], 1, []⟩ : StreamBroadcastState Nat)
    0 0 0 0 7 1 ⟨⟨[], false, 1⟩, 1, [7], 1, []⟩ [] (by decide)

/-- With no strong handle left, nothing can ever revive the core: the
strong list stays empty and the core is never touched again. -/
theorem step_of_dead (s : Sys α) (c : Cmd) (hdead : s.strongs = []) :
    (s.step c).strongs = [] ∧ (s.step c).core = s.core := by
  cases c with
  | pollStrong i tok =>
    simp only [Sys.step]
    split
    next h hg => rw [hdead] at hg; exact absurd hg (by simp)
    next => exact ⟨hdead, rfl⟩
  | pollWeak i tok =>
    simp only [Sys.step]
    split
    next h hg =>
      split
      next halive =>
        rw [Sys.alive, hdead] at halive
        exact absurd halive (by simp)
      next => exact ⟨hdead, rfl⟩
    next => exact ⟨hdead, rfl⟩
  | cloneStrong i =>
    simp only [Sys.step]
    split
    next h hg => rw [hdead] at hg; exact absurd hg (by simp)
    next => exact ⟨hdead, rfl⟩
  | cloneWeak i =>
    simp only [Sys.step]
    split
    next h hg => exact ⟨hdead, rfl⟩
    next => exact ⟨hdead, rfl⟩
  | downgrade i =>
    simp only [Sys.step]
    split
    next h hg => rw [hdead] at hg; exact absurd hg (by simp)
    next => exact ⟨hdead, rfl⟩
  | upgrade i =>
    simp only [Sys.step]
    split
    next h hg =>
      split
      next halive =>
        rw [Sys.alive, hdead] at halive
        exact absurd halive (by simp)
      next => exact ⟨hdead, rfl⟩
    next => exact ⟨hdead, rfl⟩
  | dropStrong i =>
    simp only [Sys.step]
    split
    next h hg => rw [hdead] at hg; exact absurd hg (by simp)
    next => exact ⟨hdead, rfl⟩

/-- Core death is permanent under arbitrary command sequences. -/
theorem run_of_dead (s : Sys α) (cs : List Cmd) (hdead : s.strongs = []) :
    (Sys.run s cs).strongs = [] ∧ (Sys.run s cs).core = s.core := by
  induction cs generalizing s with
  | nil => exact ⟨hdead, rfl⟩
  | cons c rest ih =>
    obtain ⟨h1, h2⟩ := step_of_dead s c hdead
    obtain ⟨h3, h4⟩ := ih (s.step c) h1
    exact ⟨h3, by rw [show Sys.run s (c :: rest) = Sys.run (s.step c) rest from rfl, h4, h2]⟩

/-- C9: a weak handle whose core has been destroyed returns end-of-stream
immediately on every `poll_next`, without touching its cursor or anything
else; `upgrade()` on it returns the non-fatal `none` (and does not even
consume an id); and this is permanent — once no strong handle remains, no
command sequence ever revives a strong handle or touches the core again. -/
theorem c9_weak_dead_core (pos id tok cnt : Nat) (s : Sys α)
    (hdead : s.strongs = []) (cs : List Cmd) :
    WeakStreamBroadcast.poll_next (none : Option (StreamBroadcastState α))
      pos id tok = some (.done, pos, none, []) ∧
    WeakStreamBroadcast.upgrade (none : Option (StreamBroadcastState α))
      pos cnt = (none, cnt) ∧
    (Sys.run s cs).strongs = [] ∧ (Sys.run s cs).core = s.core :=
  ⟨rfl, rfl, (run_of_dead s cs hdead).1, (run_of_dead s cs hdead).2⟩

/-- C9 witness: a concrete dead system with one weak handle stays dead over
a poll and a clone attempt. -/
theorem c9_weak_dead_core_witness :
    WeakStreamBroadcast.poll_next (none : Option (StreamBroadcastState Nat))
      3 1 0 = some (.done, 3, none, []) ∧
    WeakStreamBroadcast.upgrade (none : Option (StreamBroadcastState Nat))
      3 2 = (none, 2) ∧
    (Sys.run (⟨⟨⟨[.item 4], false, 0⟩, 0, [], 2, []⟩, [], [⟨0, 1⟩], 2⟩ : Sys Nat)
      [.pollWeak 0 0, .upgrade 0]).strongs = [] ∧
    (Sys.run (⟨⟨⟨[.item 4], false, 0⟩, 0, [], 2, []⟩, [], [⟨0, 1⟩], 2⟩ : Sys Nat)
      [.pollWeak 0 0, .upgrade 0]).core = ⟨⟨[.item 4], false, 0⟩, 0, [], 2, []⟩ :=
  c9_weak_dead_core 3 1 0 2
    (⟨⟨⟨[.item 4], false, 0⟩, 0, [], 2, []⟩, [], [⟨0, 1⟩], 2⟩ : Sys Nat) rfl
    [.pollWeak 0 0, .upgrade 0]

/-- C10: consumer-id uniqueness. In every system reachable from `new` by
any sequence of polls, clones (strong or weak), downgrades, upgrades and
drops, the ids of all live handles are pairwise distinct, and every id is
below the global `create_id` counter. -/
theorem c10_consumer_id_unique (outer : FusedSrc α) (size : Nat) (cs : List Cmd)
    (h2 : Handle) (hm : h2 ∈ (Sys.run (Sys.init outer size) cs).handles) :
    ((Sys.run (Sys.init outer size) cs).handles.map Handle.id).Nodup ∧
    h2.id < (Sys.run (Sys.init outer size) cs).nextId := by
  have inv := sysInv_run _ (sysInv_init outer size) cs
  exact ⟨inv.idNodup, inv.idLt h2 hm⟩

/-- C10 witness: after a clone, a downgrade and an upgrade the four handles
carry the distinct ids 0, 1, 2, 3 under counter 4. -/
theorem c10_consumer_id_unique_witness :
    (((Sys.run (Sys.init (⟨[.item 1], false, 0⟩ : FusedSrc Nat) 2)
      [.cloneStrong 0, .downgrade 0, .upgrade 0]).handles).map Handle.id).Nodup ∧
    Handle.id ⟨0, 0⟩ < (Sys.run (Sys.init (⟨[.item 1], false, 0⟩ : FusedSrc Nat) 2)
      [.cloneStrong 0, .downgrade 0, .upgrade 0]).nextId :=
  c10_consumer_id_unique (⟨[.item 1], false, 0⟩ : FusedSrc Nat) 2
    [.cloneStrong 0, .downgrade 0, .upgrade 0] ⟨0, 0⟩ (by decide)

end StreamBroadcast
